import Mathlib

/-!
Verification development for the MCTS tic-tac-toe engine of the
`AIAlgorithms` repository.

The repository contains several reimplementations of the same engine.
The definitions below are a shallow embedding of the canonical one,
`mcts/mcts.py` (classes `Board`, `Node`, `MonteCarloTreeSearch`, together
with `calculate_uct` from `flaskapp/mcts/utils.py`), plus the variant
`game_state` from `TTTMCTS/tictactoe.py` where a claim refers to it.

Modelling conventions:
* a board is a `List (List Int)` exactly as the Python nested list
  (`1` player, `-1` AI, `0` empty);
* Python `random.choice` draws from the process-wide generator; the
  generator is modelled as an abstract stream `rnd : Nat → Nat` together
  with a position that is threaded through all calls (the position
  models the hidden mutable state of the `random` module);
* the selection phase computes `max(children, key=uct)` over
  floating-point UCT scores; the index chosen at each level is modelled
  by an abstract stream `sel : Nat → Nat` (taken `mod` the number of
  children).  Theorems quantified over `sel` therefore cover the
  implementation's actual argmax choices; concrete executions fix `sel`
  to the indices the Python `max` provably picks at that input.
-/

/-- A board state: the Python `Board.state` nested list. -/
abbrev BoardS := List (List Int)

/-- Resolution of a Python list index (negative indices count from the
end; anything outside `[-len, len)` is an `IndexError`). -/
def pyIndex (len : Nat) (i : Int) : Option Nat :=
  if 0 ≤ i ∧ i < (len : Int) then some i.toNat
  else if -(len : Int) ≤ i ∧ i < 0 then some ((len : Int) + i).toNat
  else none

/-- The one error Python raises for a bad list subscript. -/
inductive PyErr where
  | indexError
deriving DecidableEq, Repr

/-- `Board.play_move` of `mcts/mcts.py` (identical in
`TTTMCTS/tictactoe.py`): `self.state[row][col] = player`.  There is no
occupancy or range check in the source; the only possible failure is the
`IndexError` of the subscripts themselves. -/
def play_move (st : BoardS) (row col : Int) (player : Int) :
    Except PyErr BoardS :=
  match pyIndex st.length row with
  | none => .error .indexError
  | some i =>
      let r := st.getD i []
      match pyIndex r.length col with
      | none => .error .indexError
      | some j => .ok (st.set i (r.set j player))

/-- In-range cell write used inside the engine, where the indices always
come from `get_available_actions` and are therefore valid (for such
indices it agrees with `play_move`, see `play_move_of_action`). -/
def setCell (st : BoardS) (r c : Nat) (p : Int) : BoardS :=
  st.set r ((st.getD r []).set c p)

/-- `Board.get_available_actions`: row-major enumeration of the empty
cells. -/
def get_available_actions (st : BoardS) : List (Nat × Nat) :=
  (st.enum.map (fun ir =>
    ir.2.enum.filterMap (fun jc =>
      if jc.2 = 0 then some (ir.1, jc.1) else none))).flatten

/-- The truthiness test `all(col for row in self.state for col in row)`
closing `game_state` (a cell is truthy iff it is non-zero). -/
def allFilled (st : BoardS) : Bool :=
  st.all (fun row => row.all (fun c => c ≠ 0))

/-- Row scan of `Board.game_state` (`mcts/mcts.py`): the first row with
`abs(sum(row)) == len(row)` wins and its first entry is returned. -/
def rowWinner (st : BoardS) : Option Int :=
  (st.find? (fun row => row.sum.natAbs = row.length)).map
    (fun row => row.getD 0 0)

/-- Column scan of `Board.game_state`: `n_cols = len(state[0])` columns,
each read with row indices `range(n_cols)` (the board is assumed
square); the first column with `abs(sum) == n_cols` wins and its first
entry (`state[0][col]`) is returned. -/
def colWinner (st : BoardS) : Option Int :=
  let n := (st.getD 0 []).length
  ((List.range n).find? (fun cidx =>
    (((List.range n).map (fun ridx => (st.getD ridx []).getD cidx 0)).sum).natAbs
      = n)).map
    (fun cidx => (st.getD 0 []).getD cidx 0)

/-- Downward diagonal check: all entries equal and none zero. -/
def diagWinner (st : BoardS) : Option Int :=
  let n := (st.getD 0 []).length
  let d := (List.range n).map (fun i => (st.getD i []).getD i 0)
  if ¬ d.contains 0 ∧ d.all (fun x => x = d.getD 0 0) then
    some (d.getD 0 0)
  else none

/-- Upward diagonal check (`state[n-1-idx][idx]`). -/
def antiDiagWinner (st : BoardS) : Option Int :=
  let n := (st.getD 0 []).length
  let d := (List.range n).map (fun i => (st.getD (n - 1 - i) []).getD i 0)
  if ¬ d.contains 0 ∧ d.all (fun x => x = d.getD 0 0) then
    some (d.getD 0 0)
  else none

/-- `Board.game_state` of `mcts/mcts.py`: rows, then columns, then the
two diagonals, then the draw test; `none` means the game is still in
progress. -/
def game_state (st : BoardS) : Option Int :=
  (rowWinner st).orElse (fun _ =>
  (colWinner st).orElse (fun _ =>
  (diagWinner st).orElse (fun _ =>
  (antiDiagWinner st).orElse (fun _ =>
  if allFilled st then some 0 else none))))

/-- `Board.is_complete`: `game_state in [-1, 0, 1]`. -/
def is_complete (st : BoardS) : Bool :=
  match game_state st with
  | some g => g = -1 ∨ g = 0 ∨ g = 1
  | none => false

/-- `Board.game_state` of `TTTMCTS/tictactoe.py`.  For each row index
`i` it counts the non-zero cells of row `i` equal to `row[0]` (row win)
and the non-zero cells of column `i` equal to `row[0]` (column win,
note the reference value is `state[i][0]`, not the top of the column);
then it tests the diagonals with plain equality (no non-zero
requirement), then the draw test. -/
def ttt_rowcol (st : BoardS) : Option Int :=
  st.enum.findSome? (fun ir =>
    let i := ir.1
    let row := ir.2
    let head := row.getD 0 0
    if row.countP (fun c => c ≠ 0 ∧ head = c) = row.length then
      some head
    else if ((List.range row.length).map
        (fun j => (st.getD j []).getD i 0)).countP
        (fun c => c ≠ 0 ∧ head = c) = row.length then
      some head
    else none)

/-- Diagonal test of `TTTMCTS/tictactoe.py`: `state[0][0] == state[1][1]
== state[2][2]` or `state[0][2] == state[1][1] == state[2][0]`, with no
check that the cells are non-empty; on success `state[1][1]` is
returned. -/
def ttt_diag (st : BoardS) : Option Int :=
  let g := fun (i j : Nat) => (st.getD i []).getD j 0
  if (g 0 0 = g 1 1 ∧ g 1 1 = g 2 2) ∨ (g 0 2 = g 1 1 ∧ g 1 1 = g 2 0) then
    some (g 1 1)
  else none

/-- `Board.game_state` of `TTTMCTS/tictactoe.py`. -/
def ttt_game_state (st : BoardS) : Option Int :=
  (ttt_rowcol st).orElse (fun _ =>
  (ttt_diag st).orElse (fun _ =>
  if allFilled st then some 0 else none))

/-- A `Node` of the search tree (`mcts/mcts.py`): board, the player
whose move produced the board, the generating action (`None` at the
root), the value sum `w`, the visit count `n`, and the owned children. -/
inductive SNode where
  | node (board : BoardS) (player : Int) (action : Option (Nat × Nat))
      (w : Int) (n : Nat) (children : List SNode)

instance : Inhabited SNode := ⟨.node [] 1 none 0 0 []⟩

def SNode.board : SNode → BoardS
  | .node b _ _ _ _ _ => b

def SNode.player : SNode → Int
  | .node _ p _ _ _ _ => p

def SNode.action : SNode → Option (Nat × Nat)
  | .node _ _ a _ _ _ => a

def SNode.w : SNode → Int
  | .node _ _ _ w _ _ => w

def SNode.n : SNode → Nat
  | .node _ _ _ _ n _ => n

def SNode.children : SNode → List SNode
  | .node _ _ _ _ _ cs => cs

/-- The abstract random state.  `rnd` models the stream of draws of the
process-wide `random` module (consumed by `random.choice`); `sel` models
the outcome of `max(children, key=uct)` at each level of the descent
(the chosen index, reduced mod the number of children). -/
structure Orac where
  sel : Nat → Nat
  rnd : Nat → Nat

/-- A fresh child created in `_expand`: the parent board with the action
applied by `next_player = -parent.player`, zero statistics. -/
def mkChild (b : BoardS) (next : Int) (a : Nat × Nat) : SNode :=
  .node (setCell b a.1 a.2 next) next (some a) 0 0 []

/-- `MonteCarloTreeSearch._expand`: append one child per available
action of the node's board (at every call site the node is childless). -/
def expandNode : SNode → SNode
  | .node b p a w n cs =>
      .node b p a w n (cs ++ (get_available_actions b).map (mkChild b (-p)))

/-- The update `_backpropagate` applies to the simulated node itself:
`w += 1` if the node is terminal, otherwise `+1` if `node.player ==
result`, `-1` if `result != 0`, `0` on a draw. -/
def simDelta (b : BoardS) (player result : Int) : Int :=
  if is_complete b then 1
  else if player = result then 1
  else if result ≠ 0 then -1 else 0

/-- The condition `node.is_terminal or node.player == result` tested for
each ancestor inside the `_backpropagate` loop (`node` is the simulated
node, fixed throughout the loop). -/
def condOf (b : BoardS) (player result : Int) : Bool :=
  is_complete b || (player == result)

/-- One turn of the ancestor loop of `_backpropagate`: given the current
`sign`, the `w`-increment granted to this ancestor and the sign passed
to the next one.  (`if cond: w += sign; sign = -sign` versus
`sign = -sign; w += sign`; nothing is added when the result is a draw.) -/
def ancestorStep (cond : Bool) (result : Int) (sign : Int) : Int × Int :=
  if result ≠ 0 then
    if cond then (sign, -sign) else (-sign, -sign)
  else (0, sign)

/-- Iterating the ancestor loop: `(ancIter cond result d).1` is the
`w`-increment of the ancestor at distance `d ≥ 1` from the simulated
node, `.2` the sign value after `d` turns (the loop starts with
`sign = -1`). -/
def ancIter (cond : Bool) (result : Int) : Nat → Int × Int
  | 0 => (0, -1)
  | d + 1 => ancestorStep cond result (ancIter cond result d).2

def ancDelta (cond : Bool) (result : Int) (d : Nat) : Int :=
  (ancIter cond result d).1

/-- `_backpropagate`, expressed on the path from the tree root down to
the simulated node: every node on the path gets `n += 1`; the simulated
node (path exhausted) gets `w += simDelta`, the ancestor at distance `d`
above it gets `w += ancDelta cond result d`. -/
def backpropPath (cond : Bool) (result : Int) : SNode → List Nat → SNode
  | .node b p a w n cs, [] =>
      .node b p a (w + simDelta b p result) (n + 1) cs
  | .node b p a w n cs, i :: rest =>
      .node b p a (w + ancDelta cond result (rest.length + 1)) (n + 1)
        (cs.set i (backpropPath cond result (cs.getD i default) rest))

/-- Lookup of the node a path leads to. -/
def nodeAt : SNode → List Nat → Option SNode
  | t, [] => some t
  | .node _ _ _ _ _ cs, i :: rest =>
      match cs[i]? with
      | some c => nodeAt c rest
      | none => none

/-- Rewrite the node at the end of a path (out-of-range steps leave the
tree unchanged because `List.set` ignores them). -/
def applyAt (f : SNode → SNode) : SNode → List Nat → SNode
  | t, [] => f t
  | .node b p a w n cs, i :: rest =>
      .node b p a w n (cs.set i (applyAt f (cs.getD i default) rest))

/-- `_select`: starting at the root, descend into a child while the
current node has children; the index taken at each level is the `sel`
draw reduced mod the number of children (the implementation picks the
argmax of the floating-point UCT scores, which is always a valid
index).  The descent recurses on a fuel argument; every caller passes a
fuel that provably dominates the tree depth (`selPath_leaf`), so the
fuel clause is never reached and the function agrees with the unbounded
`while node.children` loop of `_select`. -/
def selPath (o : Orac) : Nat → Nat → SNode → List Nat
  | 0, _, _ => []
  | fuel + 1, sp, .node _ _ _ _ _ cs =>
      match cs with
      | [] => []
      | c :: cs' =>
          (o.sel sp % (c :: cs').length) ::
            selPath o fuel (sp + 1)
              ((c :: cs').getD (o.sel sp % (c :: cs').length) default)

/-- Upper bound on the height of a tree (the root counts as one
level). -/
inductive DepthLE : SNode → Nat → Prop where
  | mk : ∀ (d : Nat) (b : BoardS) (p : Int) (a : Option (Nat × Nat))
      (w : Int) (n : Nat) (cs : List SNode),
      (∀ c ∈ cs, DepthLE c d) →
      DepthLE (.node b p a w n cs) (d + 1)

/-- Number of empty cells, used only as recursion fuel for the rollout
loop (each turn of the loop fills one empty cell). -/
def countEmpty (st : BoardS) : Nat :=
  (get_available_actions st).length

/-- The `while True` loop of `_rollout`: flip the player, stop on a
complete board, otherwise play a uniformly drawn available action; the
final `game_state` is returned (the loop only stops on complete boards,
where `game_state` is `some`). -/
def rolloutLoop (o : Orac) : Nat → Nat → BoardS → Int → Int × Nat
  | 0, rp, b, _ => ((game_state b).getD 0, rp)
  | fuel + 1, rp, b, cur =>
      let cur' := -cur
      if is_complete b then ((game_state b).getD 0, rp)
      else
        let as := get_available_actions b
        if as = [] then ((game_state b).getD 0, rp)
        else
          let a := as.getD (o.rnd rp % as.length) (0, 0)
          rolloutLoop o fuel (rp + 1) (setCell b a.1 a.2 cur') cur'

/-- `MonteCarloTreeSearch._rollout`: a terminal node's value is read
directly from its `game_state` (0 draw, `+1` if `node.player` is the
winner, `-1` otherwise); otherwise random play until a terminal state,
returning that state's raw `game_state`. -/
def rollout (o : Orac) (rp : Nat) (b : BoardS) (player : Int) : Int × Nat :=
  if is_complete b then
    (match game_state b with
     | some g => if g = 0 then 0 else if player = g then 1 else -1
     | none => 0, rp)
  else rolloutLoop o (countEmpty b + 1) rp b player

/-- What one iteration did: the selection path, the path of the
simulated node, and the path of the node expanded this iteration (if
any). -/
structure IterInfo where
  selP : List Nat
  simP : List Nat
  expandedP : Option (List Nat)
deriving DecidableEq, Repr

/-- One iteration of the loop in `find_best_move`: select a leaf; if it
is visited and non-terminal, expand it and simulate its first child
(falling back to the leaf itself when expansion created no children);
otherwise simulate the leaf; then backpropagate along the path. -/
def iterOnce (o : Orac) (F sp rp : Nat) (t : SNode) :
    SNode × Nat × Nat × IterInfo :=
  let p := selPath o F sp t
  let sp' := sp + p.length
  let selN := (nodeAt t p).getD default
  if selN.n > 0 && !is_complete selN.board then
    let t1 := applyAt expandNode t p
    match (expandNode selN).children with
    | [] =>
        let r := rollout o rp selN.board selN.player
        (backpropPath (condOf selN.board selN.player r.1) r.1 t1 p,
         sp', r.2, ⟨p, p, some p⟩)
    | c0 :: _ =>
        let r := rollout o rp c0.board c0.player
        (backpropPath (condOf c0.board c0.player r.1) r.1 t1 (p ++ [0]),
         sp', r.2, ⟨p, p ++ [0], some p⟩)
  else
    let r := rollout o rp selN.board selN.player
    (backpropPath (condOf selN.board selN.player r.1) r.1 t p,
     sp', r.2, ⟨p, p, none⟩)

/-- The iteration loop, threading the stream positions (the selection
fuel `F` is fixed across iterations). -/
def runIters (o : Orac) (F : Nat) : Nat → Nat → SNode → Nat → SNode × Nat × Nat
  | sp, rp, t, 0 => (t, sp, rp)
  | sp, rp, t, k + 1 =>
      let r := iterOnce o F sp rp t
      runIters o F r.2.1 r.2.2.1 r.1 k

/-- The root built by `find_best_move`: `Node(board=board, player=1)`. -/
def rootFor (b : BoardS) : SNode :=
  .node b 1 none 0 0 []

/-- The search tree after `find_best_move` expanded the fresh root and
ran the requested iterations.  The fresh tree has height 2 and each
iteration adds at most one level, so `iters + 2` always dominates the
height of the current tree and the selection fuel is never exhausted. -/
def searchTree (o : Orac) (sp rp : Nat) (b : BoardS) (iters : Nat) :
    SNode × Nat × Nat :=
  runIters o (iters + 2) sp rp (expandNode (rootFor b)) iters

/-- Python's `max(xs, key=f)` keeps the current item unless a later item
is strictly greater, so it returns the first maximal element. -/
def pyMaxBy (f : SNode → Nat) (x : SNode) (xs : List SNode) : SNode :=
  xs.foldl (fun best c => if f c > f best then c else best) x

/-- `max(())` in Python raises `ValueError`; this is the only failure
`find_best_move` itself can produce in the model. -/
inductive MErr where
  | maxOfEmpty
deriving DecidableEq, Repr

/-- `_get_child_node_with_max_visits` followed by `.action`. -/
def bestAction (t : SNode) : Except MErr (Option (Nat × Nat)) :=
  match t.children with
  | [] => .error .maxOfEmpty
  | c :: cs => .ok (pyMaxBy SNode.n c cs).action

/-- `MonteCarloTreeSearch.find_best_move`, with the stream positions
made explicit (they model the hidden state of the `random` module and
of the selection argmax draws; a fresh process starts at `(0, 0)`). -/
def find_best_move (o : Orac) (sp rp : Nat) (b : BoardS) (iters : Nat) :
    Except MErr (Option (Nat × Nat)) × Nat × Nat :=
  let r := searchTree o sp rp b iters
  (bestAction r.1, r.2.1, r.2.2)

/-- `calculate_uct` of `flaskapp/mcts/utils.py`: `+∞` for an unvisited
child, otherwise `w/n + c * sqrt(ln(n_p) / n)` (the Python `** 0.5` on
the non-negative radicand is real square root). -/
noncomputable def calculate_uct (child parent : SNode) (c : ℝ) : EReal :=
  if child.n = 0 then ⊤
  else ((child.w / child.n + c * Real.sqrt (Real.log parent.n / child.n) : ℝ) : EReal)

/-- `calculate_uct` with its default hyperparameter `c = 2`. -/
noncomputable def calculate_uct_default (child parent : SNode) : EReal :=
  calculate_uct child parent 2

/-- Equality of `Except` values is decidable when both components are;
used to evaluate the model at concrete inputs. -/
instance {ε α : Type} [DecidableEq ε] [DecidableEq α] :
    DecidableEq (Except ε α) := fun a b =>
  match a, b with
  | .ok x, .ok y =>
      if h : x = y then .isTrue (congrArg Except.ok h)
      else .isFalse (fun hh => h (Except.ok.inj hh))
  | .error x, .error y =>
      if h : x = y then .isTrue (congrArg Except.error h)
      else .isFalse (fun hh => h (Except.error.inj hh))
  | .ok _, .error _ => .isFalse (fun hh => Except.noConfusion hh)
  | .error _, .ok _ => .isFalse (fun hh => Except.noConfusion hh)

/-- The tree-consistency statement with an explicit offset: a node with
children has `n = Σ child.n + off`; children are measured with offset 1. -/
inductive NConsistent : Nat → SNode → Prop where
  | mk : ∀ (off : Nat) (b : BoardS) (p : Int) (a : Option (Nat × Nat))
      (w : Int) (n : Nat) (cs : List SNode),
      (cs ≠ [] → n = (cs.map SNode.n).sum + off) →
      (∀ c ∈ cs, NConsistent 1 c) →
      NConsistent off (.node b p a w n cs)

/-- Strengthened induction invariant: the offset consistency together
with the fact that a childless, non-terminal, expandable node has been
visited at most once (it is expanded the second time it is selected). -/
inductive StrongInv : Bool → SNode → Prop where
  | mk : ∀ (isRoot : Bool) (b : BoardS) (p : Int) (a : Option (Nat × Nat))
      (w : Int) (n : Nat) (cs : List SNode),
      (cs ≠ [] → n = (cs.map SNode.n).sum + (if isRoot then 0 else 1)) →
      (cs = [] → is_complete b = false → get_available_actions b ≠ [] → n ≤ 1) →
      (∀ c ∈ cs, StrongInv false c) →
      StrongInv isRoot (.node b p a w n cs)

/-- The root produced by `find_best_move` is expanded up front, so a
childless root can only come from a board without available actions. -/
def RootCond (t : SNode) : Prop :=
  t.children = [] → get_available_actions t.board = []

/-- Concrete streams built from finite lists (0 past the end). -/
def oSeq (ss rs : List Nat) : Orac :=
  ⟨fun k => ss.getD k 0, fun k => rs.getD k 0⟩

/-- An all-zero stream: at every `max` over children it denotes the
first child, which is what Python's `max` picks while all scores tie. -/
def oZero : Orac := oSeq [] []

/-- A board already won by player 1 (top row) with empty cells left. -/
def bWon : BoardS := [[1, 1, 1], [-1, -1, 0], [0, 0, 0]]

/-- An in-progress board with two empty cells `(2,0)`, `(2,1)`. -/
def bTwo : BoardS := [[1, -1, 1], [-1, 1, 1], [0, 0, -1]]

/-- The full drawn board reached from `bTwo` by `-1` at `(2,0)` then
`1` at `(2,1)`. -/
def bDraw : BoardS := [[1, -1, 1], [-1, 1, 1], [-1, 1, -1]]

/-- An in-progress board with three empty cells `(1,0)`, `(2,0)`,
`(2,1)`. -/
def bThree : BoardS := [[1, -1, 1], [0, 1, -1], [0, 0, -1]]

/-- The empty board. -/
def bEmpty : BoardS := [[0, 0, 0], [0, 0, 0], [0, 0, 0]]

/-- Streams reproducing the selection argmax and `random.choice` draws
of a 3-iteration run on `bTwo` (checked against the instrumented
source: the UCT argmax picks child 0, then child 1, then child 0). -/
def oC3 : Orac := oSeq [0, 1, 0] [0, 0]

/-- Streams for a 2-iteration run on `bThree` (argmax picks child 0
then child 1; both rollouts draw the first available action). -/
def oC7 : Orac := oSeq [0, 1] [0, 0, 0]

/-- Streams covering two consecutive 4-iteration calls on `bThree`
(argmax indices 0,1,2,1 for the first call and 0,1,2,2 for the second,
checked against the instrumented source). -/
def oC9 : Orac :=
  oSeq [0, 1, 2, 1, 0, 1, 2, 2] [1, 0, 0, 0, 1, 0, 0, 1, 0, 0, 0, 0]

/-- A two-node tree whose leaf holds the terminal drawn board `bDraw`:
the shape `_backpropagate` sees when a terminal draw is simulated. -/
def tC1 : SNode :=
  .node bTwo (-1) none 5 3 [.node bDraw 1 (some (2, 1)) 0 0 []]

/-- A non-terminal simulated node with some accumulated statistics. -/
def sC1 : SNode := .node bTwo (-1) (some (1, 0)) 3 2 []

/-- A two-node tree with `sC1` as its only child. -/
def tC1b : SNode := .node bThree 1 none 7 5 [sC1]

/-! ## Basic facts and claim theorems -/

/-- Claim C6 (failing input): `TTTMCTS/tictactoe.py` classifies the
empty board as a draw (`0`) because its diagonal test does not require
the cells to be non-empty, contradicting the claim (and the function's
own docstring, and the `mcts/mcts.py` version, which answers
"in progress"). -/
theorem thm_C6 :
    ttt_game_state bEmpty = some 0 ∧ game_state bEmpty = none := by
  decide

/-- Claim C5 (counterexample): playing onto the occupied cell `(0,0)`
raises no error at all — the cell is silently overwritten — whereas the
claim requires an `IllegalMove` failure for a non-empty target. -/
theorem cex_C5 :
    play_move [[1, 0], [0, 0]] 0 0 (-1) = .ok [[-1, 0], [0, 0]] := by
  decide

/-- Claim C4 (counterexample): on a board already won by player 1 (with
empty cells remaining, so `outcome()` is not in progress),
`find_best_move` returns the action `(1,2)` instead of failing; no
`TerminalRoot` error exists anywhere in the source.  The stream `oZero`
matches the argmax choices of the source here: in the single iteration
all root children are unvisited, every UCT score is `+∞`, and Python's
`max` picks the first child. -/
theorem cex_C4 :
    is_complete bWon = true ∧
    find_best_move oZero 0 0 bWon 1 = (.ok (some (1, 2)), 1, 0) := by
  decide

/-- Claim C9 (counterexample): two consecutive calls of
`find_best_move` on the same board `bThree` with the same iteration
count return different actions, `(2,0)` then `(2,1)`, because both draw
from the shared process-wide random stream (the second call starts at
the positions `(4, 6)` where the first one left the stream).  The
stream values were checked against the instrumented source. -/
theorem cex_C9 :
    find_best_move oC9 0 0 bThree 4 = (.ok (some (2, 0)), 4, 6) ∧
    find_best_move oC9 4 6 bThree 4 = (.ok (some (2, 1)), 8, 12) ∧
    ((2, 0) : Nat × Nat) ≠ (2, 1) := by
  decide

/-- Claim C3 (counterexample): after the three completed iterations of
the `oC3` run on `bTwo`, the expanded first root child has `n = 2` but
its only child has `n = 1`, so `n = Σ child.n` fails (the leaf rollout
the node received before being expanded is not represented among its
children). -/
theorem cex_C3 :
    (((nodeAt (searchTree oC3 0 0 bTwo 3).1 [0]).getD default).n = 2) ∧
    (((nodeAt (searchTree oC3 0 0 bTwo 3).1 [0]).getD default).children.length = 1) ∧
    ((((nodeAt (searchTree oC3 0 0 bTwo 3).1 [0]).getD default).children.map
        SNode.n).sum = 1) := by
  decide

/-- Claim C7 (counterexample): after the two iterations of the `oC7`
run on `bThree`, the first two root children tie at `n = 1` with mean
values `-1` and `+1`; the claim requires the tie to go to the higher
mean (action `(2,0)`), but the code returns the first maximal child,
action `(1,0)`. -/
theorem cex_C7 :
    (find_best_move oC7 0 0 bThree 2).1 = .ok (some (1, 0)) ∧
    ((searchTree oC7 0 0 bThree 2).1.children.map
      (fun c => (c.action, c.n, c.w)))
      = [(some (1, 0), 1, -1), (some (2, 0), 1, 1), (some (2, 1), 0, 0)] := by
  decide

/-- Claim C8 (counterexample): in the second iteration of the `oC3` run
on `bTwo`, no expansion happens (`expandedP = none`) and the simulated
node is the selected leaf `[1]` itself, which is neither terminal nor
the first child of a just-expanded node — the selected leaf was simply
unvisited.  This contradicts the claim's description of the rollout
subject. -/
theorem cex_C8 :
    (iterOnce oC3 5 (iterOnce oC3 5 0 0 (expandNode (rootFor bTwo))).2.1
      (iterOnce oC3 5 0 0 (expandNode (rootFor bTwo))).2.2.1
      (iterOnce oC3 5 0 0 (expandNode (rootFor bTwo))).1).2.2.2
      = ⟨[1], [1], none⟩ ∧
    is_complete ((nodeAt (iterOnce oC3 5 0 0 (expandNode (rootFor bTwo))).1
      [1]).getD default).board = false ∧
    ((nodeAt (iterOnce oC3 5 0 0 (expandNode (rootFor bTwo))).1
      [1]).getD default).n = 0 := by
  decide

/-- Claim C1 (counterexample): when the simulated node is the terminal
drawn board `bDraw`, `_rollout` returns the value `0`, yet
`_backpropagate` adds `+1` to the node's `w` (not the rollout value
`0`) and adds `0` to its parent (not the sign-flipped value): in `tC1`
the leaf's `w` goes from `0` to `1` and the root's `w` stays `5`. -/
theorem cex_C1 :
    rollout oZero 0 bDraw 1 = (0, 0) ∧
    (backpropPath (condOf bDraw 1 0) 0 tC1 [0]).w = 5 ∧
    (backpropPath (condOf bDraw 1 0) 0 tC1 [0]).n = 4 ∧
    ((nodeAt (backpropPath (condOf bDraw 1 0) 0 tC1 [0]) [0]).getD default).w = 1 ∧
    ((nodeAt (backpropPath (condOf bDraw 1 0) 0 tC1 [0]) [0]).getD default).n = 1 := by
  decide

/-- A resolved Python index is in range. -/
theorem pyIndex_lt {len : Nat} {i : Int} {k : Nat}
    (h : pyIndex len i = some k) : k < len := by
  unfold pyIndex at h
  split_ifs at h with h1 h2 <;> injection h with h' <;> omega

/-- Reading back a written position of a list. -/
theorem getD_set_self {α : Type} (l : List α) (i : Nat) (x d : α)
    (h : i < l.length) : (l.set i x).getD i d = x := by
  rw [List.getD_eq_getElem?_getD, List.getElem?_set_eq_of_lt x h]
  rfl

/-- Claim C2: the UCT score used during selection is `+∞` for an
unvisited child and `w/n + c*sqrt(ln(parent.n)/n)` for a visited one,
and the exploration constant defaults to 2. -/
theorem thm_C2 : ∀ (child parent : SNode) (c : ℝ),
    (child.n = 0 → calculate_uct child parent c = ⊤) ∧
    (1 ≤ child.n → calculate_uct child parent c =
      (((child.w : ℝ) / (child.n : ℝ)
        + c * Real.sqrt (Real.log (parent.n : ℝ) / (child.n : ℝ)) : ℝ) : EReal)) ∧
    calculate_uct_default child parent = calculate_uct child parent 2 := by
  intro child parent c
  refine ⟨fun h => ?_, fun h => ?_, rfl⟩
  · simp [calculate_uct, h]
  · have hn : ¬ child.n = 0 := by omega
    simp [calculate_uct, hn]

/-- Witness for C2 at concrete nodes: an unvisited child (`n = 0`)
scores `⊤`, a child with `n = 1`, `w = 2` scores the formula, and the
default constant agrees with `c = 2`. -/
theorem wit_C2 :
    calculate_uct (.node [] 1 none 0 0 []) (.node [] 1 none 0 1 []) 2 = ⊤ ∧
    calculate_uct (.node [] 1 none 2 1 []) (.node [] 1 none 0 1 []) 2 =
      (((SNode.w (.node [] 1 none 2 1 []) : ℝ)
          / (SNode.n (.node [] 1 none 2 1 []) : ℝ)
        + 2 * Real.sqrt (Real.log (SNode.n (.node [] 1 none 0 1 []) : ℝ)
          / (SNode.n (.node [] 1 none 2 1 []) : ℝ)) : ℝ) : EReal) ∧
    calculate_uct_default (.node [] 1 none 2 1 []) (.node [] 1 none 0 1 []) =
      calculate_uct (.node [] 1 none 2 1 []) (.node [] 1 none 0 1 []) 2 :=
  ⟨(thm_C2 (.node [] 1 none 0 0 []) (.node [] 1 none 0 1 []) 2).1 rfl,
   (thm_C2 (.node [] 1 none 2 1 []) (.node [] 1 none 0 1 []) 2).2.1 (by decide),
   (thm_C2 (.node [] 1 none 2 1 []) (.node [] 1 none 0 1 []) 2).2.2⟩

/-- Claim C5 (amended): `play_move` performs no validation at all.  An
in-range pair of indices (including Python's negative indices) writes
the player value unconditionally — an occupied target is silently
overwritten — and only an index outside `[-len, len)` fails, with a
plain `IndexError`. -/
theorem thm_C5 : ∀ (st : BoardS) (row col p : Int),
    (pyIndex st.length row = none →
      play_move st row col p = .error .indexError) ∧
    (∀ i, pyIndex st.length row = some i →
      pyIndex (st.getD i []).length col = none →
      play_move st row col p = .error .indexError) ∧
    (∀ i j, pyIndex st.length row = some i →
      pyIndex (st.getD i []).length col = some j →
      play_move st row col p = .ok (st.set i ((st.getD i []).set j p)) ∧
      ((st.set i ((st.getD i []).set j p)).getD i []).getD j 0 = p) := by
  intro st row col p
  refine ⟨fun h => ?_, fun i h1 h2 => ?_, fun i j h1 h2 => ⟨?_, ?_⟩⟩
  · simp only [play_move, h]
  · simp only [play_move, h1, h2]
  · simp only [play_move, h1, h2]
  · have hi := pyIndex_lt h1
    have hj := pyIndex_lt h2
    rw [getD_set_self _ _ _ _ hi, getD_set_self _ _ _ _ hj]

/-- Witness for C5 at the occupied cell `(0,0)` of `[[1,0],[0,0]]` and
at the out-of-range row 7: the write overwrites the occupied cell, the
bad row index raises `IndexError`. -/
theorem wit_C5 :
    play_move [[1, 0], [0, 0]] 0 0 (-1) =
      .ok ([[1, 0], [0, 0]].set 0 (([[1, 0], [0, 0]].getD 0 []).set 0 (-1))) ∧
    (([[1, 0], [0, 0]].set 0 (([[1, 0], [0, 0]].getD 0 []).set 0 (-1))).getD 0 []).getD 0 0
      = (-1 : Int) ∧
    play_move [[1, 0], [0, 0]] 7 0 5 = .error .indexError :=
  ⟨((thm_C5 [[1, 0], [0, 0]] 0 0 (-1)).2.2 0 0 (by decide) (by decide)).1,
   ((thm_C5 [[1, 0], [0, 0]] 0 0 (-1)).2.2 0 0 (by decide) (by decide)).2,
   (thm_C5 [[1, 0], [0, 0]] 7 0 5).1 (by decide)⟩

/-- The sign carried by the `_backpropagate` loop alternates strictly
once the result is decisive, starting from `-1`. -/
theorem ancIter_sign (cond : Bool) (result : Int) :
    ∀ d, (ancIter cond result d).2
      = if result = 0 then -1 else (-1) ^ (d + 1) := by
  intro d
  induction d with
  | zero => simp [ancIter]
  | succ d ih =>
      unfold ancIter ancestorStep
      rw [ih]
      by_cases h0 : result = 0
      · simp [h0]
      · cases cond <;> simp [h0, pow_succ]

/-- Closed form of the `w`-increment the `_backpropagate` loop grants to
the ancestor at distance `d + 1` from the simulated node. -/
theorem ancDelta_closed (cond : Bool) (result : Int) (d : Nat) :
    ancDelta cond result (d + 1)
      = if result = 0 then 0
        else (if cond then 1 else -1) * (-1) ^ (d + 1) := by
  unfold ancDelta
  show (ancestorStep cond result (ancIter cond result d).2).1 = _
  rw [ancIter_sign]
  by_cases h0 : result = 0
  · simp [ancestorStep, h0]
  · cases cond <;> simp [ancestorStep, h0, pow_succ]

/-- For a non-terminal simulated node with a proper player value, the
ancestor increments are exactly the sign-alternating negations of the
increment at the simulated node. -/
theorem ancDelta_negamax (b : BoardS) (player result : Int)
    (hterm : is_complete b = false) (hp : player = 1 ∨ player = -1)
    (d : Nat) :
    ancDelta (condOf b player result) result (d + 1)
      = (-1) ^ (d + 1) * simDelta b player result := by
  rw [ancDelta_closed]
  by_cases h0 : result = 0
  · subst h0
    have hpr : ¬ player = 0 := by rcases hp with h | h <;> omega
    simp [simDelta, hterm, hpr]
  · by_cases hpr : player = result
    · have hc : condOf b player result = true := by simp [condOf, hpr]
      have hs : simDelta b player result = 1 := by simp [simDelta, hterm, hpr]
      rw [hc, hs, if_neg h0]
      simp [mul_comm]
    · have hc : condOf b player result = false := by
        simp [condOf, hterm, hpr]
      have hs : simDelta b player result = -1 := by
        simp [simDelta, hterm, hpr, h0]
      rw [hc, hs, if_neg h0]
      simp [mul_comm]

/-- Effect of `_backpropagate` on the node sitting at a prefix `q` of
the full path `q ++ r`: its board, player and action are untouched, its
visit count grows by one, and its value sum grows by the simulated-node
increment when `r = []` (the node is the simulated one) and by the
ancestor increment at distance `r.length` otherwise. -/
theorem nodeAt_backpropPath (cond : Bool) (res : Int) :
    ∀ (q r : List Nat) (t : SNode),
      (nodeAt (backpropPath cond res t (q ++ r)) q).map
        (fun u => (u.board, u.player, u.action, u.w, u.n))
      = (nodeAt t q).map (fun u =>
          (u.board, u.player, u.action,
           u.w + (if r = [] then simDelta u.board u.player res
                  else ancDelta cond res r.length),
           u.n + 1)) := by
  intro q
  induction q with
  | nil =>
      intro r t
      cases t with
      | node b p a w n cs =>
          cases r with
          | nil =>
              simp [backpropPath, nodeAt, SNode.board, SNode.player,
                SNode.action, SNode.w, SNode.n]
          | cons i rest =>
              simp [backpropPath, nodeAt, SNode.board, SNode.player,
                SNode.action, SNode.w, SNode.n, List.length_cons]
  | cons i q' ih =>
      intro r t
      cases t with
      | node b p a w n cs =>
          show (nodeAt (backpropPath cond res (.node b p a w n cs)
              (i :: (q' ++ r))) (i :: q')).map _ = _
          by_cases hi : i < cs.length
          · have hget : cs[i]? = some cs[i] := List.getElem?_eq_getElem hi
            have hgetD : cs.getD i default = cs[i] := by
              rw [List.getD_eq_getElem?_getD, hget]
              rfl
            have hset : (cs.set i (backpropPath cond res cs[i]
                (q' ++ r)))[i]? = some (backpropPath cond res cs[i]
                  (q' ++ r)) :=
              List.getElem?_set_eq_of_lt _ hi
            simp only [backpropPath, nodeAt, hgetD, hset, hget]
            exact ih r cs[i]
          · have hlen : cs.length ≤ i := Nat.le_of_not_lt hi
            have h1 : (cs.set i (backpropPath cond res (cs.getD i default)
                (q' ++ r)))[i]? = none := by
              rw [List.getElem?_eq_none]
              simpa using hlen
            have h2 : cs[i]? = none := by
              rw [List.getElem?_eq_none hlen]
            simp only [backpropPath, nodeAt, h1, h2, Option.map_none']

/-- Claim C1 (amended): backpropagation increments the visit count of
the simulated node and of every ancestor by one.  The simulated node's
`w` grows by `simDelta` — which is the perspective value (`+1` own win,
`-1` opponent win, `0` draw, measured for the player whose move produced
the node) when the node is non-terminal, but a constant `+1` when the
node is terminal.  The ancestor at distance `d` receives `ancDelta`,
and for a non-terminal simulated node this equals `(-1)^d` times the
simulated node's increment: strict negamax alternation holds exactly in
the non-terminal case. -/
theorem thm_C1 : ∀ (t : SNode) (q r : List Nat) (res : Int) (s : SNode),
    nodeAt t (q ++ r) = some s →
    (s.player = 1 ∨ s.player = -1) →
    ((nodeAt (backpropPath (condOf s.board s.player res) res t (q ++ r))
        (q ++ r)).map (fun u => (u.board, u.player, u.action, u.w, u.n))
      = some (s.board, s.player, s.action,
          s.w + simDelta s.board s.player res, s.n + 1)) ∧
    (r ≠ [] →
      (nodeAt (backpropPath (condOf s.board s.player res) res t (q ++ r))
          q).map (fun u => (u.board, u.player, u.action, u.w, u.n))
        = (nodeAt t q).map (fun u =>
            (u.board, u.player, u.action,
             u.w + ancDelta (condOf s.board s.player res) res r.length,
             u.n + 1))) ∧
    (is_complete s.board = false → r ≠ [] →
      ancDelta (condOf s.board s.player res) res r.length
        = (-1) ^ r.length * simDelta s.board s.player res) := by
  intro t q r res s hs hp
  refine ⟨?_, fun hr => ?_, fun hterm hr => ?_⟩
  · have h := nodeAt_backpropPath (condOf s.board s.player res) res
      (q ++ r) [] t
    rw [List.append_nil] at h
    rw [h, hs]
    simp
  · have h := nodeAt_backpropPath (condOf s.board s.player res) res q r t
    rw [h]
    simp only [if_neg hr]
  · cases r with
    | nil => exact absurd rfl hr
    | cons a as =>
        rw [List.length_cons]
        exact ancDelta_negamax s.board s.player res hterm hp as.length

/-- Witness for C1 at the concrete two-node tree `tC1b` whose leaf
`sC1` is non-terminal: the leaf gets `n+1` and `w + simDelta`, the root
gets `n+1` and `w + ancDelta`, and the ancestor increment is the
sign-flipped simulated increment. -/
theorem wit_C1 :
    ((nodeAt (backpropPath (condOf (SNode.board sC1) (SNode.player sC1) 1) 1
        tC1b ([] ++ [0])) ([] ++ [0])).map
        (fun u => (u.board, u.player, u.action, u.w, u.n))
      = some (SNode.board sC1, SNode.player sC1, SNode.action sC1,
          SNode.w sC1 + simDelta (SNode.board sC1) (SNode.player sC1) 1,
          SNode.n sC1 + 1)) ∧
    (([0] : List Nat) ≠ [] →
      (nodeAt (backpropPath (condOf (SNode.board sC1) (SNode.player sC1) 1) 1
          tC1b ([] ++ [0])) []).map
          (fun u => (u.board, u.player, u.action, u.w, u.n))
        = (nodeAt tC1b []).map (fun u =>
            (u.board, u.player, u.action,
             u.w + ancDelta (condOf (SNode.board sC1) (SNode.player sC1) 1) 1
               (List.length [0]),
             u.n + 1))) ∧
    (is_complete (SNode.board sC1) = false → ([0] : List Nat) ≠ [] →
      ancDelta (condOf (SNode.board sC1) (SNode.player sC1) 1) 1
          (List.length [0])
        = (-1) ^ List.length [0]
            * simDelta (SNode.board sC1) (SNode.player sC1) 1) :=
  thm_C1 tC1b [] [0] 1 sC1 rfl (Or.inr rfl)

/-- Python's `max(xs, key=f)` returns the first maximal element: the
list splits around the result into a strictly smaller prefix and a
not-larger suffix. -/
theorem pyMaxBy_first (f : SNode → Nat) :
    ∀ (xs : List SNode) (x : SNode),
      ∃ l1 l2, x :: xs = l1 ++ (pyMaxBy f x xs) :: l2 ∧
        (∀ y ∈ l1, f y < f (pyMaxBy f x xs)) ∧
        (∀ y ∈ l2, f y ≤ f (pyMaxBy f x xs)) := by
  intro xs
  induction xs with
  | nil =>
      intro x
      exact ⟨[], [], rfl, by simp, by simp⟩
  | cons c cs ih =>
      intro x
      by_cases hc : f c > f x
      · have hfold : pyMaxBy f x (c :: cs) = pyMaxBy f c cs := by
          simp [pyMaxBy, List.foldl, hc]
        obtain ⟨l1, l2, hsplit, hl1, hl2⟩ := ih c
        have hcr : f c ≤ f (pyMaxBy f c cs) := by
          have hmem : c ∈ c :: cs := List.mem_cons_self c cs
          rw [hsplit] at hmem
          rcases List.mem_append.mp hmem with h | h
          · exact Nat.le_of_lt (hl1 c h)
          · rcases List.mem_cons.mp h with h | h
            · exact Nat.le_of_eq (congrArg f h)
            · exact hl2 c h
        refine ⟨x :: l1, l2, ?_, ?_, ?_⟩
        · rw [hfold, List.cons_append, ← hsplit]
        · intro y hy
          rw [hfold]
          rcases List.mem_cons.mp hy with h | h
          · rw [h]; exact Nat.lt_of_lt_of_le hc hcr
          · exact hl1 y h
        · intro y hy
          rw [hfold]
          exact hl2 y hy
      · have hfold : pyMaxBy f x (c :: cs) = pyMaxBy f x cs := by
          simp [pyMaxBy, List.foldl, hc]
        have hcx : f c ≤ f x := Nat.le_of_not_lt hc
        obtain ⟨l1, l2, hsplit, hl1, hl2⟩ := ih x
        cases l1 with
        | nil =>
            have h1 : x = pyMaxBy f x cs := by
              have := hsplit
              simp only [List.nil_append] at this
              exact (List.cons.injEq _ _ _ _).mp this |>.1
            have h2 : cs = l2 := by
              have := hsplit
              simp only [List.nil_append] at this
              exact (List.cons.injEq _ _ _ _).mp this |>.2
            refine ⟨[], c :: l2, ?_, by simp, ?_⟩
            · rw [hfold, List.nil_append, ← h1, ← h2]
            · intro y hy
              rw [hfold]
              rcases List.mem_cons.mp hy with h | h
              · rw [h, ← h1]; exact hcx
              · exact hl2 y h
        | cons a l1' =>
            have h1 : x = a ∧ cs = l1' ++ pyMaxBy f x cs :: l2 := by
              have := hsplit
              simp only [List.cons_append] at this
              exact (List.cons.injEq _ _ _ _).mp this
            refine ⟨x :: c :: l1', l2, ?_, ?_, ?_⟩
            · rw [hfold]
              simp only [List.cons_append]
              rw [← h1.2]
            · intro y hy
              rw [hfold]
              have hxr : f x < f (pyMaxBy f x cs) := by
                have := hl1 a (List.mem_cons_self a l1')
                rw [← h1.1] at this
                exact this
              rcases List.mem_cons.mp hy with h | h
              · rw [h]; exact hxr
              · rcases List.mem_cons.mp h with h' | h'
                · rw [h']; exact Nat.lt_of_le_of_lt hcx hxr
                · exact hl1 y (List.mem_cons_of_mem a h')
            · intro y hy
              rw [hfold]
              exact hl2 y hy

/-- Claim C7 (amended): after the loop, `find_best_move` returns the
action of the root child with maximal visit count `n`, and a tie on `n`
is broken in favour of the earliest child in creation (row-major
action) order — Python's `max` keeps the first maximal element; the
mean value `w/n` plays no role. -/
theorem thm_C7 : ∀ (t : SNode) (c : SNode) (cs : List SNode),
    t.children = c :: cs →
    bestAction t = .ok (pyMaxBy SNode.n c cs).action ∧
    ∃ l1 l2, c :: cs = l1 ++ (pyMaxBy SNode.n c cs) :: l2 ∧
      (∀ y ∈ l1, y.n < (pyMaxBy SNode.n c cs).n) ∧
      (∀ y ∈ l2, y.n ≤ (pyMaxBy SNode.n c cs).n) := by
  intro t c cs h
  constructor
  · simp only [bestAction, h]
  · exact pyMaxBy_first SNode.n cs c

/-- Witness for C7 at the concrete tree `tC1` with a single child. -/
theorem wit_C7 :
    bestAction tC1
        = .ok (pyMaxBy SNode.n (.node bDraw 1 (some (2, 1)) 0 0 []) []).action ∧
    ∃ l1 l2, [SNode.node bDraw 1 (some (2, 1)) 0 0 []]
        = l1 ++ (pyMaxBy SNode.n (.node bDraw 1 (some (2, 1)) 0 0 []) []) :: l2 ∧
      (∀ y ∈ l1, y.n < (pyMaxBy SNode.n (.node bDraw 1 (some (2, 1)) 0 0 []) []).n) ∧
      (∀ y ∈ l2, y.n ≤ (pyMaxBy SNode.n (.node bDraw 1 (some (2, 1)) 0 0 []) []).n) :=
  thm_C7 tC1 (.node bDraw 1 (some (2, 1)) 0 0 []) [] rfl

/-- Claim C9 (amended): the result of `find_best_move` is a pure
function of the board, the iteration count, and the state of the random
streams at entry; two calls agree whenever they start from streams with
identical values and identical positions.  (Two successive calls in one
process share the module-level stream and resume at different
positions, which is why `cex_C9` exhibits different answers.) -/
theorem thm_C9 : ∀ (o o' : Orac) (sp rp : Nat) (b : BoardS) (it : Nat),
    (∀ k, o.sel k = o'.sel k) → (∀ k, o.rnd k = o'.rnd k) →
    find_best_move o sp rp b it = find_best_move o' sp rp b it := by
  intro o o' sp rp b it hs hr
  have h : o = o' := by
    cases o
    cases o'
    simp only [Orac.mk.injEq]
    exact ⟨funext hs, funext hr⟩
  rw [h]

/-- Witness for C9: the extensionality applied at `oZero` itself. -/
theorem wit_C9 :
    find_best_move oZero 0 0 bThree 1 = find_best_move oZero 0 0 bThree 1 :=
  thm_C9 oZero oZero 0 0 bThree 1 (fun _ => rfl) (fun _ => rfl)

/-- Setting past the end of a list changes nothing. -/
theorem set_oob {α : Type} : ∀ (l : List α) (i : Nat) (x : α),
    l.length ≤ i → l.set i x = l := by
  intro l
  induction l with
  | nil => intro i x _; rfl
  | cons a as ih =>
      intro i x h
      cases i with
      | zero => simp at h
      | succ j =>
          simp only [List.set_cons_succ]
          rw [ih j x (by simpa using h)]

/-- `expandNode` leaves every field but the children untouched. -/
theorem expandNode_board (t : SNode) : (expandNode t).board = t.board := by
  cases t; rfl

theorem expandNode_n (t : SNode) : (expandNode t).n = t.n := by
  cases t; rfl

theorem expandNode_action (t : SNode) : (expandNode t).action = t.action := by
  cases t; rfl

/-- The children created by expanding a childless node are exactly one
fresh node per available action. -/
theorem expandNode_children (b : BoardS) (p : Int) (a : Option (Nat × Nat))
    (w : Int) (n : Nat) :
    (expandNode (.node b p a w n [])).children
      = (get_available_actions b).map (mkChild b (-p)) := by
  rfl

/-- `_backpropagate` leaves board, player and action untouched and adds
one visit at the root of the tree it is applied to. -/
theorem backpropPath_board (cond : Bool) (res : Int) (t : SNode)
    (p : List Nat) : (backpropPath cond res t p).board = t.board := by
  cases t <;> cases p <;> rfl

theorem backpropPath_action (cond : Bool) (res : Int) (t : SNode)
    (p : List Nat) : (backpropPath cond res t p).action = t.action := by
  cases t <;> cases p <;> rfl

theorem backpropPath_n (cond : Bool) (res : Int) (t : SNode)
    (p : List Nat) : (backpropPath cond res t p).n = t.n + 1 := by
  cases t <;> cases p <;> rfl

/-- The list of children keeps its length under `_backpropagate`. -/
theorem backpropPath_children_length (cond : Bool) (res : Int) (t : SNode)
    (p : List Nat) :
    (backpropPath cond res t p).children.length = t.children.length := by
  cases t with
  | node b pl a w n cs =>
      cases p with
      | nil => rfl
      | cons i rest => simp [backpropPath, SNode.children]

/-- `applyAt` with `expandNode` leaves the fields of the node it starts
from untouched. -/
theorem applyAt_expand_n (p : List Nat) (t : SNode) :
    (applyAt expandNode t p).n = t.n := by
  cases t with
  | node b pl a w n cs =>
      cases p with
      | nil => exact expandNode_n _
      | cons i rest => rfl

theorem applyAt_expand_board (p : List Nat) (t : SNode) :
    (applyAt expandNode t p).board = t.board := by
  cases t with
  | node b pl a w n cs =>
      cases p with
      | nil => exact expandNode_board _
      | cons i rest => rfl

theorem applyAt_expand_action (p : List Nat) (t : SNode) :
    (applyAt expandNode t p).action = t.action := by
  cases t with
  | node b pl a w n cs =>
      cases p with
      | nil => exact expandNode_action _
      | cons i rest => rfl

/-- Replacing one element by another with the same measure keeps the
sum of the measures. -/
theorem sum_map_set_eq (g : SNode → Nat) :
    ∀ (cs : List SNode) (i : Nat) (x : SNode),
      (∀ (h : i < cs.length), g x = g (cs.get ⟨i, h⟩)) →
      ((cs.set i x).map g).sum = (cs.map g).sum := by
  intro cs
  induction cs with
  | nil => intro i x _; rfl
  | cons c cs' ih =>
      intro i x h
      cases i with
      | zero =>
          have := h (by simp)
          simp only [List.get] at this
          simp [List.set_cons_zero, this]
      | succ j =>
          simp only [List.set_cons_succ, List.map_cons, List.sum_cons]
          rw [ih j x (fun hj => by simpa using h (by simpa using hj))]

/-- Replacing one element by another whose measure is one larger raises
the sum of the measures by one. -/
theorem sum_map_set_succ (g : SNode → Nat) :
    ∀ (cs : List SNode) (i : Nat) (x : SNode) (hi : i < cs.length),
      g x = g (cs.get ⟨i, hi⟩) + 1 →
      ((cs.set i x).map g).sum = (cs.map g).sum + 1 := by
  intro cs
  induction cs with
  | nil => intro i x hi h; simp at hi
  | cons c cs' ih =>
      intro i x hi h
      cases i with
      | zero =>
          simp only [List.get] at h
          simp [List.set_cons_zero, h]
          omega
      | succ j =>
          simp only [List.set_cons_succ, List.map_cons, List.sum_cons]
          rw [ih j x (by simpa using hi) (by simpa using h)]
          omega

/-- Replacing one element by another with the same image keeps the
mapped list. -/
theorem map_set_congr {β : Type} (g : SNode → β) :
    ∀ (cs : List SNode) (i : Nat) (x : SNode),
      (∀ (h : i < cs.length), g x = g (cs.get ⟨i, h⟩)) →
      (cs.set i x).map g = cs.map g := by
  intro cs
  induction cs with
  | nil => intro i x _; rfl
  | cons c cs' ih =>
      intro i x h
      cases i with
      | zero =>
          have := h (by simp)
          simp only [List.get] at this
          simp [List.set_cons_zero, this]
      | succ j =>
          simp only [List.set_cons_succ, List.map_cons]
          rw [ih j x (fun hj => by simpa using h (by simpa using hj))]

/-- Looking up a node along a concatenated path. -/
theorem nodeAt_append : ∀ (p q : List Nat) (t : SNode),
    nodeAt t (p ++ q) = (nodeAt t p).bind (fun u => nodeAt u q) := by
  intro p
  induction p with
  | nil => intro q t; simp [nodeAt]
  | cons i p' ih =>
      intro q t
      cases t with
      | node b pl a w n cs =>
          show nodeAt (.node b pl a w n cs) (i :: (p' ++ q)) = _
          simp only [nodeAt]
          cases h : cs[i]? with
          | none => rfl
          | some c => exact ih q c

/-- Rewriting the node a valid path leads to. -/
theorem nodeAt_applyAt (f : SNode → SNode) :
    ∀ (p : List Nat) (t e : SNode),
      nodeAt t p = some e →
      nodeAt (applyAt f t p) p = some (f e) := by
  intro p
  induction p with
  | nil =>
      intro t e h
      simp only [nodeAt, Option.some.injEq] at h
      subst h
      simp [nodeAt, applyAt]
  | cons i p' ih =>
      intro t e h
      cases t with
      | node b pl a w n cs =>
          simp only [nodeAt] at h
          cases hc : cs[i]? with
          | none => rw [hc] at h; exact absurd h (by simp)
          | some c =>
              rw [hc] at h
              have hi : i < cs.length := by
                by_contra hge
                rw [List.getElem?_eq_none (Nat.le_of_not_lt hge)] at hc
                exact absurd hc (by simp)
              have hgetD : cs.getD i default = c := by
                rw [List.getD_eq_getElem?_getD, hc]
                rfl
              have hset : (cs.set i (applyAt f c p'))[i]?
                  = some (applyAt f c p') :=
                List.getElem?_set_eq_of_lt _ hi
              simp only [applyAt, nodeAt, hgetD, hset]
              exact ih c e h

/-- The selection path out of a childless node is empty. -/
theorem selPath_childless (o : Orac) (F sp : Nat) (b : BoardS) (pl : Int)
    (a : Option (Nat × Nat)) (w : Int) (n : Nat) :
    selPath o F sp (.node b pl a w n []) = [] := by
  cases F <;> rfl

/-- With fuel dominating the height of the tree, the selection descent
always ends at a childless node, exactly like the `while node.children`
loop of `_select`. -/
theorem selPath_leaf (o : Orac) :
    ∀ (F : Nat) (t : SNode) (sp : Nat), DepthLE t F →
      ∃ e, nodeAt t (selPath o F sp t) = some e ∧ e.children = [] := by
  intro F
  induction F with
  | zero => intro t sp h; exact absurd h (by intro hh; cases hh)
  | succ F' ih =>
      intro t sp h
      cases t with
      | node b pl a w n cs =>
          cases cs with
          | nil =>
              exact ⟨.node b pl a w n [], rfl, rfl⟩
          | cons c cs' =>
              have hd : ∀ x ∈ c :: cs', DepthLE x F' := by
                cases h with
                | mk d _ _ _ _ _ _ hall =>
                    exact hall
              have hlen : o.sel sp % (c :: cs').length < (c :: cs').length :=
                Nat.mod_lt _ (Nat.succ_pos _)
              have hgetD : (c :: cs').getD (o.sel sp % (c :: cs').length) default
                  = (c :: cs').get ⟨_, hlen⟩ := by
                rw [List.getD_eq_getElem?_getD, List.getElem?_eq_getElem hlen]
                rfl
              have hmem : (c :: cs').get ⟨_, hlen⟩ ∈ c :: cs' :=
                List.get_mem _ _ hlen
              obtain ⟨e, he, hec⟩ :=
                ih ((c :: cs').get ⟨_, hlen⟩) (sp + 1) (hd _ hmem)
              refine ⟨e, ?_, hec⟩
              show nodeAt (.node b pl a w n (c :: cs'))
                ((o.sel sp % (c :: cs').length) ::
                  selPath o F' (sp + 1)
                    ((c :: cs').getD (o.sel sp % (c :: cs').length) default)) = some e
              simp only [nodeAt, List.getElem?_eq_getElem hlen, hgetD]
              exact he

/-- Height bounds are upward closed. -/
theorem DepthLE_mono : ∀ {t : SNode} {d d' : Nat},
    DepthLE t d → d ≤ d' → DepthLE t d' := by
  intro t d d' h
  induction h generalizing d' with
  | mk e b p a w n cs _ ih =>
      intro hle
      cases d' with
      | zero => omega
      | succ d'' =>
          exact .mk d'' b p a w n cs (fun c hc => ih c hc (by omega))

/-- `_backpropagate` does not change the shape of the tree, so height
bounds survive it. -/
theorem DepthLE_backpropPath (cond : Bool) (res : Int) :
    ∀ (p : List Nat) (t : SNode) (d : Nat),
      DepthLE t d → DepthLE (backpropPath cond res t p) d := by
  intro p
  induction p with
  | nil =>
      intro t d h
      cases t with
      | node b pl a w n cs =>
          cases h with
          | mk e _ _ _ _ _ _ hall => exact .mk e _ _ _ _ _ _ hall
  | cons i rest ih =>
      intro t d h
      cases t with
      | node b pl a w n cs =>
          cases h with
          | mk e _ _ _ _ _ _ hall =>
              refine .mk e _ _ _ _ _ _ (fun c hc => ?_)
              by_cases hi : i < cs.length
              · rcases List.mem_or_eq_of_mem_set hc with hmem | heq
                · exact hall c hmem
                · subst heq
                  have hgetD : cs.getD i default = cs.get ⟨i, hi⟩ := by
                    rw [List.getD_eq_getElem?_getD,
                      List.getElem?_eq_getElem hi]
                    rfl
                  rw [hgetD]
                  exact ih _ e (hall _ (List.get_mem _ _ hi))
              · rw [set_oob cs i _ (Nat.le_of_not_lt hi)] at hc
                exact hall c hc

/-- Expanding one node adds at most one level to the tree. -/
theorem DepthLE_applyAt_expand :
    ∀ (p : List Nat) (t : SNode) (d : Nat),
      DepthLE t d → DepthLE (applyAt expandNode t p) (d + 1) := by
  intro p
  induction p with
  | nil =>
      intro t d h
      cases t with
      | node b pl a w n cs =>
          cases h with
          | mk e _ _ _ _ _ _ hall =>
              show DepthLE (.node b pl a w n
                (cs ++ (get_available_actions b).map (mkChild b (-pl)))) _
              refine .mk (e + 1) _ _ _ _ _ _ (fun c hc => ?_)
              rcases List.mem_append.mp hc with hmem | hmem
              · exact DepthLE_mono (hall c hmem) (by omega)
              · obtain ⟨act, _, hact⟩ := List.mem_map.mp hmem
                rw [← hact]
                exact .mk e _ _ _ _ _ _ (fun c hc => absurd hc (by simp))
  | cons i rest ih =>
      intro t d h
      cases t with
      | node b pl a w n cs =>
          cases h with
          | mk e _ _ _ _ _ _ hall =>
              refine .mk (e + 1) _ _ _ _ _ _ (fun c hc => ?_)
              by_cases hi : i < cs.length
              · rcases List.mem_or_eq_of_mem_set hc with hmem | heq
                · exact DepthLE_mono (hall c hmem) (by omega)
                · subst heq
                  have hgetD : cs.getD i default = cs.get ⟨i, hi⟩ := by
                    rw [List.getD_eq_getElem?_getD,
                      List.getElem?_eq_getElem hi]
                    rfl
                  rw [hgetD]
                  exact ih (cs.get ⟨i, hi⟩) e (hall _ (List.get_mem _ _ hi))
              · rw [set_oob cs i _ (Nat.le_of_not_lt hi)] at hc
                exact DepthLE_mono (hall c hc) (by omega)

/-- One iteration of the search loop adds at most one level to the
tree. -/
theorem DepthLE_iterOnce (o : Orac) (F sp rp : Nat) (t : SNode) (d : Nat)
    (h : DepthLE t d) : DepthLE (iterOnce o F sp rp t).1 (d + 1) := by
  unfold iterOnce
  by_cases hb : (((nodeAt t (selPath o F sp t)).getD default).n > 0
      && !is_complete ((nodeAt t (selPath o F sp t)).getD default).board) = true
  · simp only [hb, if_pos]
    cases hm : (expandNode ((nodeAt t (selPath o F sp t)).getD default)).children with
    | nil =>
        simp only
        exact DepthLE_backpropPath _ _ _ _ _
          (DepthLE_applyAt_expand _ _ _ h)
    | cons c0 rest =>
        simp only
        exact DepthLE_backpropPath _ _ _ _ _
          (DepthLE_applyAt_expand _ _ _ h)
  · simp only [Bool.not_eq_true] at hb
    simp only [hb]
    simp only [Bool.false_eq_true, if_false]
    exact DepthLE_mono (DepthLE_backpropPath _ _ _ _ _ h) (by omega)

/-- Inside an invariant tree, a childless non-terminal node with
available actions has been visited at most once. -/
theorem StrongInv_nodeAt_leaf :
    ∀ (p : List Nat) (flag : Bool) (t e : SNode),
      StrongInv flag t → nodeAt t p = some e → e.children = [] →
      is_complete e.board = false → get_available_actions e.board ≠ [] →
      e.n ≤ 1 := by
  intro p
  induction p with
  | nil =>
      intro flag t e hinv h hc hterm hact
      simp only [nodeAt, Option.some.injEq] at h
      subst h
      cases hinv with
      | mk _ _ _ _ _ _ _ _ h2 _ => exact h2 hc hterm hact
  | cons i p' ih =>
      intro flag t e hinv h hc hterm hact
      cases t with
      | node b pl a w n cs =>
          simp only [nodeAt] at h
          cases hg : cs[i]? with
          | none => rw [hg] at h; exact absurd h (by simp)
          | some c =>
              rw [hg] at h
              have hmem : c ∈ cs := List.getElem?_mem hg
              cases hinv with
              | mk _ _ _ _ _ _ _ _ _ h3 =>
                  exact ih false c e (h3 c hmem) h hc hterm hact

/-- Backpropagation along a path ending in a childless node that is
either fresh, terminal, or without actions preserves the strengthened
invariant: every node on the path gains one visit together with exactly
one of its children. -/
theorem StrongInv_backpropPath (cond : Bool) (res : Int) :
    ∀ (p : List Nat) (flag : Bool) (t e : SNode),
      StrongInv flag t → nodeAt t p = some e → e.children = [] →
      (e.n = 0 ∨ is_complete e.board = true ∨
        get_available_actions e.board = []) →
      StrongInv flag (backpropPath cond res t p) := by
  intro p
  induction p with
  | nil =>
      intro flag t e hinv h hc hend
      simp only [nodeAt, Option.some.injEq] at h
      subst h
      cases t with
      | node b pl a w n cs =>
          simp only [SNode.children] at hc
          subst hc
          simp only [SNode.n, SNode.board] at hend
          refine .mk flag _ _ _ _ _ _ (fun hne => absurd rfl hne)
            (fun _ hterm hact => ?_) (fun c hcm => absurd hcm (by simp))
          rcases hend with h0 | h0 | h0
          · omega
          · rw [h0] at hterm; exact absurd hterm (by simp)
          · exact absurd h0 hact
  | cons i p' ih =>
      intro flag t e hinv h hc hend
      cases t with
      | node b pl a w n cs =>
          simp only [nodeAt] at h
          cases hg : cs[i]? with
          | none => rw [hg] at h; exact absurd h (by simp)
          | some c =>
              rw [hg] at h
              have hi : i < cs.length := by
                by_contra hge
                rw [List.getElem?_eq_none (Nat.le_of_not_lt hge)] at hg
                exact absurd hg (by simp)
              have hcmem : c ∈ cs := List.getElem?_mem hg
              have hceq : cs.get ⟨i, hi⟩ = c := by
                have := List.getElem?_eq_getElem hi
                rw [this] at hg
                injection hg
              have hgetD : cs.getD i default = c := by
                rw [List.getD_eq_getElem?_getD, hg]
                rfl
              cases hinv with
              | mk _ _ _ _ _ _ _ h1 h2 h3 =>
                  show StrongInv flag (.node b pl a _ (n + 1)
                    (cs.set i (backpropPath cond res (cs.getD i default) p')))
                  rw [hgetD]
                  have hsum := sum_map_set_succ SNode.n cs i
                    (backpropPath cond res c p') hi
                    (by rw [backpropPath_n, hceq])
                  refine .mk flag _ _ _ _ _ _ (fun _ => ?_)
                    (fun habs => ?_) (fun y hy => ?_)
                  · rw [hsum, h1 (by intro hnil; subst hnil; simp at hi)]
                    omega
                  · have : (cs.set i (backpropPath cond res c p')).length = 0 := by
                      rw [habs]; rfl
                    simp at this
                    subst this
                    simp at hi
                  · rcases List.mem_or_eq_of_mem_set hy with hmem | heq
                    · exact h3 y hmem
                    · subst heq
                      exact ih false c e (h3 c hcmem) h hc hend

/-- Expanding the childless node a path leads to preserves the
strengthened invariant, provided a node with actions was visited
exactly once before its expansion (the root, expanded while unvisited,
only ever reaches this point without actions). -/
theorem StrongInv_applyAt_expand :
    ∀ (p : List Nat) (flag : Bool) (t e : SNode),
      StrongInv flag t → nodeAt t p = some e → e.children = [] →
      (get_available_actions e.board ≠ [] → e.n = 1) →
      (flag = true → p = [] → get_available_actions e.board = []) →
      StrongInv flag (applyAt expandNode t p) := by
  intro p
  induction p with
  | nil =>
      intro flag t e hinv h hc hn hroot
      simp only [nodeAt, Option.some.injEq] at h
      subst h
      cases t with
      | node b pl a w n cs =>
          simp only [SNode.children] at hc
          subst hc
          simp only [SNode.board, SNode.n] at hn hroot
          show StrongInv flag (.node b pl a w n
            ([] ++ (get_available_actions b).map (mkChild b (-pl))))
          cases hact : get_available_actions b with
          | nil =>
              exact .mk flag _ _ _ _ _ _ (fun hne => absurd rfl hne)
                (fun _ _ hactne => absurd hact hactne)
                (fun c hcm => absurd hcm (by simp))
          | cons a0 as =>
              cases flag with
              | true =>
                  have := hroot rfl trivial
                  rw [hact] at this
                  exact absurd this (by simp)
              | false =>
                  refine .mk false _ _ _ _ _ _ (fun _ => ?_)
                    (fun habs => ?_) (fun y hy => ?_)
                  · have hzero : ((((a0 :: as)).map (mkChild b (-pl))).map
                        SNode.n).sum = 0 := by
                      apply List.sum_eq_zero
                      intro x hx
                      rcases List.mem_map.mp hx with ⟨y, hy, hyx⟩
                      rcases List.mem_map.mp hy with ⟨act, _, hact'⟩
                      rw [← hyx, ← hact']
                      rfl
                    simp only [List.nil_append]
                    rw [hzero, hn (by rw [hact]; simp)]
                    simp
                  · simp at habs
                  · simp only [List.nil_append] at hy
                    rcases List.mem_map.mp hy with ⟨act, _, hact'⟩
                    rw [← hact']
                    exact .mk false _ _ _ _ _ _ (fun hne => absurd rfl hne)
                      (fun _ _ _ => by omega)
                      (fun c hcm => absurd hcm (by simp))
  | cons i p' ih =>
      intro flag t e hinv h hc hn hroot
      cases t with
      | node b pl a w n cs =>
          simp only [nodeAt] at h
          cases hg : cs[i]? with
          | none => rw [hg] at h; exact absurd h (by simp)
          | some c =>
              rw [hg] at h
              have hi : i < cs.length := by
                by_contra hge
                rw [List.getElem?_eq_none (Nat.le_of_not_lt hge)] at hg
                exact absurd hg (by simp)
              have hcmem : c ∈ cs := List.getElem?_mem hg
              have hceq : cs.get ⟨i, hi⟩ = c := by
                have := List.getElem?_eq_getElem hi
                rw [this] at hg
                injection hg
              have hgetD : cs.getD i default = c := by
                rw [List.getD_eq_getElem?_getD, hg]
                rfl
              cases hinv with
              | mk _ _ _ _ _ _ _ h1 h2 h3 =>
                  show StrongInv flag (.node b pl a w n
                    (cs.set i (applyAt expandNode (cs.getD i default) p')))
                  rw [hgetD]
                  have hsum := sum_map_set_eq SNode.n cs i
                    (applyAt expandNode c p')
                    (fun hh => by rw [applyAt_expand_n]; rw [hceq])
                  refine .mk flag _ _ _ _ _ _ (fun _ => ?_)
                    (fun habs => ?_) (fun y hy => ?_)
                  · rw [hsum]
                    exact h1 (by intro hnil; subst hnil; simp at hi)
                  · have : (cs.set i (applyAt expandNode c p')).length = 0 := by
                      rw [habs]; rfl
                    simp at this
                    subst this
                    simp at hi
                  · rcases List.mem_or_eq_of_mem_set hy with hmem | heq
                    · exact h3 y hmem
                    · subst heq
                      exact ih false c e (h3 c hcmem) h hc hn
                        (fun hft _ => (Bool.false_ne_true hft).elim)

/-- A descent below the root keeps the number of root children. -/
theorem applyAt_cons_children_length (i : Nat) (rest : List Nat)
    (t : SNode) :
    (applyAt expandNode t (i :: rest)).children.length
      = t.children.length := by
  cases t
  simp [applyAt, SNode.children]

theorem expandNode_children_of_leaf (e : SNode) (h : e.children = []) :
    (expandNode e).children
      = (get_available_actions e.board).map (mkChild e.board (-e.player)) := by
  cases e with
  | node b pl a w n cs =>
      simp only [SNode.children] at h
      subst h
      rfl

theorem applyAt_nil (f : SNode → SNode) (t : SNode) :
    applyAt f t [] = f t := by
  cases t
  rfl

theorem iterOnce_StrongInv (o : Orac) (F sp rp : Nat) (t : SNode)
    (hinv : StrongInv true t) (hroot : RootCond t) (hd : DepthLE t F) :
    StrongInv true (iterOnce o F sp rp t).1 ∧
    RootCond (iterOnce o F sp rp t).1 := by
  obtain ⟨e, hse, hec⟩ := selPath_leaf o F t sp hd
  unfold iterOnce
  simp only [hse, Option.getD_some]
  by_cases hb : (e.n > 0 && !is_complete e.board) = true
  · rw [if_pos hb]
    have hb' := Bool.and_eq_true_iff.mp hb
    have hb1 : e.n > 0 := of_decide_eq_true hb'.1
    have hb2 : is_complete e.board = false := by
      have := hb'.2
      simp at this
      exact this
    have hn1 : get_available_actions e.board ≠ [] → e.n = 1 := by
      intro hact
      have hle := StrongInv_nodeAt_leaf _ true t e hinv hse hec hb2 hact
      omega
    have hrt : true = true → selPath o F sp t = [] →
        get_available_actions e.board = [] := by
      intro _ hp
      rw [hp] at hse
      simp only [nodeAt, Option.some.injEq] at hse
      subst hse
      exact hroot hec
    have hinv1 : StrongInv true (applyAt expandNode t (selPath o F sp t)) :=
      StrongInv_applyAt_expand _ true t e hinv hse hec hn1 hrt
    have ht1 : nodeAt (applyAt expandNode t (selPath o F sp t))
        (selPath o F sp t) = some (expandNode e) :=
      nodeAt_applyAt expandNode _ t e hse
    cases hm : (expandNode e).children with
    | nil =>
        have hact0 : get_available_actions e.board = [] := by
          rw [expandNode_children_of_leaf e hec] at hm
          exact List.map_eq_nil_iff.mp hm
        constructor
        · exact StrongInv_backpropPath _ _ _ true _ (expandNode e) hinv1 ht1
            hm (Or.inr (Or.inr (by rw [expandNode_board]; exact hact0)))
        · intro habs
          rw [backpropPath_board, applyAt_expand_board]
          have hlen := backpropPath_children_length
            (condOf e.board e.player (rollout o rp e.board e.player).1)
            (rollout o rp e.board e.player).1
            (applyAt expandNode t (selPath o F sp t)) (selPath o F sp t)
          rw [habs] at hlen
          simp only [List.length_nil] at hlen
          cases hp : selPath o F sp t with
          | nil =>
              rw [hp] at hse
              simp only [nodeAt, Option.some.injEq] at hse
              rw [hse]
              exact hact0
          | cons i prest =>
              rw [hp, applyAt_cons_children_length] at hlen
              apply hroot
              cases hcs : t.children with
              | nil => rfl
              | cons x xs => rw [hcs] at hlen; simp at hlen
    | cons c0 rest =>
        have hmap := expandNode_children_of_leaf e hec
        rw [hm] at hmap
        have hc0 : c0.children = [] ∧ c0.n = 0 := by
          cases hacts : get_available_actions e.board with
          | nil => rw [hacts] at hmap; simp at hmap
          | cons a0 as =>
              rw [hacts] at hmap
              simp only [List.map_cons] at hmap
              have := (List.cons.injEq _ _ _ _).mp hmap
              rw [this.1]
              exact ⟨rfl, rfl⟩
        have hend : nodeAt (applyAt expandNode t (selPath o F sp t))
            (selPath o F sp t ++ [0]) = some c0 := by
          rw [nodeAt_append, ht1]
          show nodeAt (expandNode e) [0] = some c0
          cases hee : expandNode e with
          | node be pe ae we ne cse =>
              have hcse : cse = c0 :: rest := by
                rw [← hm, hee]
                rfl
              subst hcse
              simp [nodeAt]
        constructor
        · exact StrongInv_backpropPath _ _ _ true _ c0 hinv1 hend hc0.1
            (Or.inl hc0.2)
        · intro habs
          rw [backpropPath_board, applyAt_expand_board]
          have hlen := backpropPath_children_length
            (condOf c0.board c0.player (rollout o rp c0.board c0.player).1)
            (rollout o rp c0.board c0.player).1
            (applyAt expandNode t (selPath o F sp t))
            (selPath o F sp t ++ [0])
          rw [habs] at hlen
          simp only [List.length_nil] at hlen
          cases hp : selPath o F sp t with
          | nil =>
              rw [hp, applyAt_nil] at hlen
              rw [hp] at hse
              simp only [nodeAt, Option.some.injEq] at hse
              rw [hse] at hlen
              rw [hm] at hlen
              simp at hlen
          | cons i prest =>
              rw [hp, applyAt_cons_children_length] at hlen
              apply hroot
              cases hcs : t.children with
              | nil => rfl
              | cons x xs => rw [hcs] at hlen; simp at hlen
  · rw [if_neg hb]
    have hb0 : e.n = 0 ∨ is_complete e.board = true := by
      by_cases h1 : e.n = 0
      · exact Or.inl h1
      · right
        by_contra h2
        apply hb
        simp only [Bool.and_eq_true]
        refine ⟨decide_eq_true (by omega), ?_⟩
        simp only [Bool.not_eq_true']
        exact Bool.eq_false_iff.mpr h2
    constructor
    · exact StrongInv_backpropPath _ _ _ true t e hinv hse hec
        (hb0.elim Or.inl (fun h => Or.inr (Or.inl h)))
    · intro habs
      rw [backpropPath_board]
      apply hroot
      have hlen := backpropPath_children_length
        (condOf e.board e.player (rollout o rp e.board e.player).1)
        (rollout o rp e.board e.player).1 t (selPath o F sp t)
      rw [habs] at hlen
      simp only [List.length_nil] at hlen
      cases hcs : t.children with
      | nil => rfl
      | cons x xs => rw [hcs] at hlen; simp at hlen

/-- The iteration loop preserves the invariant, the root condition and
a height bound that grows by at most one per iteration. -/
theorem runIters_StrongInv (o : Orac) (F : Nat) :
    ∀ (k sp rp d : Nat) (t : SNode),
      StrongInv true t → RootCond t → DepthLE t d → d + k ≤ F →
      StrongInv true (runIters o F sp rp t k).1 ∧
      RootCond (runIters o F sp rp t k).1 ∧
      DepthLE (runIters o F sp rp t k).1 (d + k) := by
  intro k
  induction k with
  | zero =>
      intro sp rp d t h1 h2 h3 _
      exact ⟨h1, h2, h3⟩
  | succ k' ih =>
      intro sp rp d t h1 h2 h3 hk
      have hdF : DepthLE t F := DepthLE_mono h3 (by omega)
      have hstep := iterOnce_StrongInv o F sp rp t h1 h2 hdF
      have hdep := DepthLE_iterOnce o F sp rp t d h3
      show StrongInv true (runIters o F _ _ (iterOnce o F sp rp t).1 k').1 ∧ _
      have := ih (iterOnce o F sp rp t).2.1 (iterOnce o F sp rp t).2.2.1
        (d + 1) (iterOnce o F sp rp t).1 hstep.1 hstep.2 hdep (by omega)
      refine ⟨this.1, this.2.1, ?_⟩
      have heq : d + 1 + k' = d + (k' + 1) := by omega
      rw [← heq]
      exact this.2.2

/-- The freshly expanded root satisfies the invariant, the root
condition, and has height at most 2. -/
theorem initialTree_StrongInv (b : BoardS) :
    StrongInv true (expandNode (rootFor b)) ∧
    RootCond (expandNode (rootFor b)) ∧
    DepthLE (expandNode (rootFor b)) 2 := by
  refine ⟨?_, ?_, ?_⟩
  · show StrongInv true (.node b 1 none 0 0
      ([] ++ (get_available_actions b).map (mkChild b (-1))))
    refine .mk true _ _ _ _ _ _ (fun _ => ?_) (fun _ _ _ => by omega)
      (fun c hc => ?_)
    · have hzero : (((get_available_actions b).map (mkChild b (-1))).map
          SNode.n).sum = 0 := by
        apply List.sum_eq_zero
        intro x hx
        rcases List.mem_map.mp hx with ⟨y, hy, hyx⟩
        rcases List.mem_map.mp hy with ⟨act, _, hact'⟩
        rw [← hyx, ← hact']
        rfl
      simp only [List.nil_append]
      rw [hzero]
      simp
    · simp only [List.nil_append] at hc
      rcases List.mem_map.mp hc with ⟨act, _, hact'⟩
      rw [← hact']
      exact .mk false _ _ _ _ _ _ (fun hne => absurd rfl hne)
        (fun _ _ _ => by omega) (fun c hcm => absurd hcm (by simp))
  · intro habs
    show get_available_actions ((expandNode (rootFor b)).board) = []
    rw [expandNode_board]
    show get_available_actions b = []
    have : (get_available_actions b).map (mkChild b (-1)) = [] := by
      have := habs
      simpa [expandNode, rootFor, SNode.children] using this
    exact List.map_eq_nil_iff.mp this
  · show DepthLE (.node b 1 none 0 0
      ([] ++ (get_available_actions b).map (mkChild b (-1)))) 2
    refine .mk 1 _ _ _ _ _ _ (fun c hc => ?_)
    simp only [List.nil_append] at hc
    rcases List.mem_map.mp hc with ⟨act, _, hact'⟩
    rw [← hact']
    exact .mk 0 _ _ _ _ _ _ (fun c hcm => absurd hcm (by simp))

/-- The strengthened invariant implies the offset consistency. -/
theorem StrongInv_NConsistent :
    ∀ {flag : Bool} {t : SNode}, StrongInv flag t →
      NConsistent (if flag then 0 else 1) t := by
  intro flag t h
  induction h with
  | mk isRoot b p a w n cs h1 _ _ ih =>
      refine .mk _ _ _ _ _ _ _ (fun hne => ?_) (fun c hc => ?_)
      · exact h1 hne
      · have := ih c hc
        simpa using this

/-- Claim C3 (amended): after any number of completed iterations of
`find_best_move` — for every board, every random stream and every
selection choice, hence in particular for the implementation's UCT
argmax — the root satisfies `n = Σ child.n`, while every other expanded
node satisfies `n = Σ child.n + 1`: the extra visit is the leaf rollout
the node received before it was expanded, which is not represented
among its children.  The claimed `n = Σ child.n` for every expanded
node is refuted by `cex_C3`. -/
theorem thm_C3 (o : Orac) (sp rp : Nat) (b : BoardS) (iters : Nat) :
    NConsistent 0 (searchTree o sp rp b iters).1 := by
  have hinit := initialTree_StrongInv b
  have hrun := runIters_StrongInv o (iters + 2) iters sp rp 2
    (expandNode (rootFor b)) hinit.1 hinit.2.1 hinit.2.2 (by omega)
  have := StrongInv_NConsistent hrun.1
  simpa [searchTree] using this

/-- Backpropagation into an empty path leaves the children alone. -/
theorem backpropPath_nil_children (cond : Bool) (res : Int) (t : SNode) :
    (backpropPath cond res t []).children = t.children := by
  cases t
  rfl

/-- On a board without available actions the tree never grows: the
childless root stays childless and keeps its board. -/
theorem iterOnce_childless (o : Orac) (F sp rp : Nat) (t : SNode)
    (hc : t.children = []) (hact : get_available_actions t.board = []) :
    (iterOnce o F sp rp t).1.children = [] ∧
    (iterOnce o F sp rp t).1.board = t.board := by
  have hp : selPath o F sp t = [] := by
    cases t with
    | node b pl a w n cs =>
        simp only [SNode.children] at hc
        subst hc
        exact selPath_childless o F sp b pl a w n
  have hsel : nodeAt t (selPath o F sp t) = some t := by
    rw [hp]
    cases t
    rfl
  have hexp : (expandNode t).children = [] := by
    rw [expandNode_children_of_leaf t hc, hact]
    rfl
  unfold iterOnce
  simp only [hsel, Option.getD_some]
  by_cases hb : (t.n > 0 && !is_complete t.board) = true
  · rw [if_pos hb]
    cases hm : (expandNode t).children with
    | nil =>
        constructor
        · rw [hp]
          show (backpropPath _ _ (applyAt expandNode t []) []).children = []
          rw [backpropPath_nil_children, applyAt_nil]
          exact hexp
        · rw [backpropPath_board, applyAt_expand_board]
    | cons c0 rest =>
        rw [hexp] at hm
        exact absurd hm (by simp)
  · rw [if_neg hb]
    constructor
    · rw [hp]
      show (backpropPath _ _ t []).children = []
      rw [backpropPath_nil_children]
      exact hc
    · rw [backpropPath_board]

/-- Iterating on a childless root with no available actions keeps it
childless. -/
theorem runIters_childless (o : Orac) (F : Nat) :
    ∀ (k sp rp : Nat) (t : SNode),
      t.children = [] → get_available_actions t.board = [] →
      (runIters o F sp rp t k).1.children = [] := by
  intro k
  induction k with
  | zero => intro sp rp t hc _; exact hc
  | succ k' ih =>
      intro sp rp t hc hact
      have hstep := iterOnce_childless o F sp rp t hc hact
      show (runIters o F _ _ (iterOnce o F sp rp t).1 k').1.children = []
      exact ih _ _ _ hstep.1 (by rw [hstep.2]; exact hact)

/-- Claim C4 (amended): on a board with no available action (in
particular any completely filled board, drawn or won), `find_best_move`
fails — the final `max` over the empty list of root children raises —
but the failure is Python's generic `ValueError`, not a dedicated
`TerminalRoot` error, which does not exist in the source.  On a
terminal board that still has empty cells (won position),
`find_best_move` does not fail at all and returns an action, see
`cex_C4`. -/
theorem thm_C4 : ∀ (b : BoardS), get_available_actions b = [] →
    ∀ (o : Orac) (sp rp iters : Nat),
      (find_best_move o sp rp b iters).1 = .error .maxOfEmpty := by
  intro b hact o sp rp iters
  have hinit : (expandNode (rootFor b)).children = [] := by
    rw [expandNode_children_of_leaf (rootFor b) rfl]
    show ((get_available_actions b).map _) = []
    rw [hact]
    rfl
  have hb : (expandNode (rootFor b)).board = b := expandNode_board _
  have hrun := runIters_childless o (iters + 2) iters sp rp
    (expandNode (rootFor b)) hinit (by rw [hb]; exact hact)
  show bestAction (searchTree o sp rp b iters).1 = .error .maxOfEmpty
  unfold bestAction
  rw [show (searchTree o sp rp b iters).1.children = [] from hrun]

/-- Witness for C4 at the concrete full drawn board `bDraw`. -/
theorem wit_C4 :
    (find_best_move oZero 0 0 bDraw 5).1 = .error .maxOfEmpty :=
  thm_C4 bDraw (by decide) oZero 0 0 5

/-- Backpropagation below the root keeps each root child's generating
action. -/
theorem map_action_backpropPath_cons (cond : Bool) (res : Int)
    (t : SNode) (i : Nat) (rest : List Nat) :
    (backpropPath cond res t (i :: rest)).children.map SNode.action
      = t.children.map SNode.action := by
  cases t with
  | node b pl a w n cs =>
      show (cs.set i (backpropPath cond res (cs.getD i default) rest)).map
        SNode.action = cs.map SNode.action
      apply map_set_congr
      intro h
      rw [backpropPath_action]
      rw [List.getD_eq_getElem?_getD, List.getElem?_eq_getElem h]
      rfl

/-- Expansion below the root keeps each root child's generating
action. -/
theorem map_action_applyAt_cons (t : SNode) (i : Nat) (rest : List Nat) :
    (applyAt expandNode t (i :: rest)).children.map SNode.action
      = t.children.map SNode.action := by
  cases t with
  | node b pl a w n cs =>
      show (cs.set i (applyAt expandNode (cs.getD i default) rest)).map
        SNode.action = cs.map SNode.action
      apply map_set_congr
      intro h
      rw [applyAt_expand_action]
      rw [List.getD_eq_getElem?_getD, List.getElem?_eq_getElem h]
      rfl

/-- One iteration with positive fuel never changes the root children's
generating actions (nor the root board). -/
theorem iterOnce_actions (o : Orac) (F' sp rp : Nat) (t : SNode)
    (hcs : t.children ≠ []) :
    (iterOnce o (F' + 1) sp rp t).1.children.map SNode.action
      = t.children.map SNode.action ∧
    (iterOnce o (F' + 1) sp rp t).1.board = t.board := by
  obtain ⟨b, pl, a, w, n, cs, rfl⟩ :
      ∃ b pl a w n cs, t = SNode.node b pl a w n cs := by
    cases t with
    | node b pl a w n cs => exact ⟨b, pl, a, w, n, cs, rfl⟩
  cases cs with
  | nil => exact absurd rfl hcs
  | cons c cs' =>
      have hp : selPath o (F' + 1) sp (.node b pl a w n (c :: cs'))
          = (o.sel sp % (c :: cs').length) ::
            selPath o F' (sp + 1)
              ((c :: cs').getD (o.sel sp % (c :: cs').length) default) := rfl
      unfold iterOnce
      simp only [hp]
      generalize selPath o F' (sp + 1)
        ((c :: cs').getD (o.sel sp % (c :: cs').length) default) = rest
      generalize (nodeAt (SNode.node b pl a w n (c :: cs'))
        ((o.sel sp % (c :: cs').length) :: rest)).getD default = selN
      by_cases hb : (selN.n > 0 && !is_complete selN.board) = true
      · rw [if_pos hb]
        cases hm : (expandNode selN).children with
        | nil =>
            constructor
            · rw [map_action_backpropPath_cons, map_action_applyAt_cons]
            · rw [backpropPath_board, applyAt_expand_board]
        | cons c0 rest0 =>
            constructor
            · rw [List.cons_append, map_action_backpropPath_cons,
                map_action_applyAt_cons]
            · rw [backpropPath_board, applyAt_expand_board]
      · rw [if_neg hb]
        constructor
        · rw [map_action_backpropPath_cons]
        · rw [backpropPath_board]

/-- The actions of freshly created children are exactly the available
actions. -/
theorem map_action_mkChild (b : BoardS) (p' : Int) :
    ∀ (l : List (Nat × Nat)),
      (l.map (mkChild b p')).map SNode.action = l.map some := by
  intro l
  induction l with
  | nil => rfl
  | cons a as ih => simp only [List.map_cons, ih]; rfl

/-- Running any number of iterations never changes the root children's
generating actions. -/
theorem runIters_actions (o : Orac) (F' : Nat) :
    ∀ (k sp rp : Nat) (t : SNode),
      t.children ≠ [] →
      (runIters o (F' + 1) sp rp t k).1.children.map SNode.action
        = t.children.map SNode.action := by
  intro k
  induction k with
  | zero => intro sp rp t _; rfl
  | succ k' ih =>
      intro sp rp t hcs
      have hstep := iterOnce_actions o F' sp rp t hcs
      show (runIters o (F' + 1) _ _ (iterOnce o (F' + 1) sp rp t).1 k').1.children.map
        SNode.action = _
      have hne : (iterOnce o (F' + 1) sp rp t).1.children ≠ [] := by
        intro habs
        apply hcs
        have := hstep.1
        rw [habs] at this
        simp only [List.map_nil] at this
        exact List.map_eq_nil_iff.mp this.symm
      rw [ih _ _ _ hne, hstep.1]

/-- Claim C10: on a non-terminal board with at least one empty cell,
the action returned by `find_best_move` is one of the available
(empty-cell) actions of the input board: root children are created only
from the board's available actions, iterations never change their
generating actions, and the returned action belongs to one of those
children. -/
theorem thm_C10 (o : Orac) (sp rp : Nat) (b : BoardS) (iters : Nat)
    (hterm : is_complete b = false)
    (hact : get_available_actions b ≠ []) :
    ∃ a, a ∈ get_available_actions b ∧
      (find_best_move o sp rp b iters).1 = .ok (some a) := by
  have hinit : (expandNode (rootFor b)).children.map SNode.action
      = (get_available_actions b).map some := by
    rw [expandNode_children_of_leaf (rootFor b) rfl]
    exact map_action_mkChild b _ _
  have hne : (expandNode (rootFor b)).children ≠ [] := by
    intro habs
    apply hact
    rw [habs] at hinit
    simp only [List.map_nil] at hinit
    exact List.map_eq_nil_iff.mp hinit.symm
  have hrun : (searchTree o sp rp b iters).1.children.map SNode.action
      = (get_available_actions b).map some := by
    show (runIters o (iters + 2) sp rp (expandNode (rootFor b)) iters).1.children.map
      SNode.action = _
    rw [show iters + 2 = (iters + 1) + 1 from rfl]
    rw [runIters_actions o (iters + 1) iters sp rp _ hne, hinit]
  cases hcs : (searchTree o sp rp b iters).1.children with
  | nil =>
      rw [hcs] at hrun
      simp only [List.map_nil] at hrun
      exact absurd (List.map_eq_nil_iff.mp hrun.symm) hact
  | cons c cs' =>
      have hmem : pyMaxBy SNode.n c cs' ∈ c :: cs' := by
        obtain ⟨l1, l2, hs, _, _⟩ := pyMaxBy_first SNode.n cs' c
        rw [hs]
        exact List.mem_append.mpr (Or.inr (List.mem_cons_self _ _))
      have hactmem : (pyMaxBy SNode.n c cs').action
          ∈ (get_available_actions b).map some := by
        rw [← hrun, hcs]
        exact List.mem_map_of_mem SNode.action hmem
      rcases List.mem_map.mp hactmem with ⟨a, hamem, haeq⟩
      refine ⟨a, hamem, ?_⟩
      show bestAction (searchTree o sp rp b iters).1 = .ok (some a)
      unfold bestAction
      rw [hcs]
      show Except.ok (pyMaxBy SNode.n c cs').action = Except.ok (some a)
      rw [haeq]

/-- Witness for C10 at the concrete board `bThree` with one
iteration. -/
theorem wit_C10 :
    ∃ a, a ∈ get_available_actions bThree ∧
      (find_best_move oZero 0 0 bThree 1).1 = .ok (some a) :=
  thm_C10 oZero 0 0 bThree 1 (by decide) (by decide)

/-- Claim C8 (amended): each iteration performs exactly one rollout.
Its subject is the selected leaf itself whenever that leaf is unvisited
or terminal (no expansion happens then); only when the selected leaf is
visited and non-terminal is it expanded, and the subject is then its
first child in enumeration order (or the leaf itself in the degenerate
case of a non-terminal board without actions).  The claim's description
— "the terminal node if reached, otherwise the first child of the
just-expanded node" — misses the unvisited-leaf case, see `cex_C8`. -/
theorem thm_C8 (o : Orac) (F sp rp : Nat) (t : SNode)
    (hd : DepthLE t F) :
    (((nodeAt t (selPath o F sp t)).getD default).n = 0 ∨
        is_complete ((nodeAt t (selPath o F sp t)).getD default).board = true →
      (iterOnce o F sp rp t).2.2.2 =
        ⟨selPath o F sp t, selPath o F sp t, none⟩) ∧
    (((nodeAt t (selPath o F sp t)).getD default).n > 0 →
      is_complete ((nodeAt t (selPath o F sp t)).getD default).board = false →
      (iterOnce o F sp rp t).2.2.2 =
        ⟨selPath o F sp t,
         (if get_available_actions
             ((nodeAt t (selPath o F sp t)).getD default).board = []
          then selPath o F sp t else selPath o F sp t ++ [0]),
         some (selPath o F sp t)⟩) := by
  obtain ⟨e, hse, hec⟩ := selPath_leaf o F t sp hd
  unfold iterOnce
  simp only [hse, Option.getD_some]
  constructor
  · intro h0
    have hb : (e.n > 0 && !is_complete e.board) = false := by
      rcases h0 with h0 | h0
      · simp [h0]
      · simp [h0]
    rw [hb]
    simp only [Bool.false_eq_true, if_false]
  · intro hn hterm
    have hb : (e.n > 0 && !is_complete e.board) = true := by
      simp [hn, hterm]
    rw [if_pos hb]
    cases hm : (expandNode e).children with
    | nil =>
        have hact0 : get_available_actions e.board = [] := by
          rw [expandNode_children_of_leaf e hec] at hm
          exact List.map_eq_nil_iff.mp hm
        rw [if_pos hact0]
    | cons c0 rest =>
        have hact1 : get_available_actions e.board ≠ [] := by
          intro habs
          rw [expandNode_children_of_leaf e hec, habs] at hm
          exact absurd hm.symm (by simp)
        rw [if_neg hact1]

/-- Witness for C8 at the concrete tree `tC1`, whose selected leaf is
terminal: no expansion happens and the leaf itself is simulated. -/
theorem wit_C8 :
    (((nodeAt tC1 (selPath oZero 3 0 tC1)).getD default).n = 0 ∨
        is_complete ((nodeAt tC1 (selPath oZero 3 0 tC1)).getD
          default).board = true →
      (iterOnce oZero 3 0 0 tC1).2.2.2 =
        ⟨selPath oZero 3 0 tC1, selPath oZero 3 0 tC1, none⟩) ∧
    (((nodeAt tC1 (selPath oZero 3 0 tC1)).getD default).n > 0 →
      is_complete ((nodeAt tC1 (selPath oZero 3 0 tC1)).getD
        default).board = false →
      (iterOnce oZero 3 0 0 tC1).2.2.2 =
        ⟨selPath oZero 3 0 tC1,
         (if get_available_actions
             ((nodeAt tC1 (selPath oZero 3 0 tC1)).getD default).board = []
          then selPath oZero 3 0 tC1 else selPath oZero 3 0 tC1 ++ [0]),
         some (selPath oZero 3 0 tC1)⟩) :=
  thm_C8 oZero 3 0 0 tC1 (by
    show DepthLE (SNode.node bTwo (-1) none 5 3
      [SNode.node bDraw 1 (some (2, 1)) 0 0 []]) 3
    refine .mk 2 _ _ _ _ _ _ (fun c hc => ?_)
    simp only [List.mem_singleton] at hc
    subst hc
    exact .mk 1 _ _ _ _ _ _ (fun c hcm => absurd hcm (by simp)))

/-- For an index pair coming from `get_available_actions` the raising
`play_move` and the engine-internal in-range write `setCell` agree. -/
theorem play_move_of_action (st : BoardS) (r c : Nat) (p : Int)
    (hmem : (r, c) ∈ get_available_actions st) :
    play_move st (r : Int) (c : Int) p = .ok (setCell st r c p) := by
  unfold get_available_actions at hmem
  rcases List.mem_flatten.mp hmem with ⟨l, hl, hml⟩
  rcases List.mem_map.mp hl with ⟨⟨i, row⟩, hir, rfl⟩
  rcases List.mem_filterMap.mp hml with ⟨⟨j, v⟩, hjv, heq⟩
  have h0 : v = 0 ∧ i = r ∧ j = c := by
    by_cases hv : v = 0
    · rw [if_pos hv] at heq
      injection heq with heq
      exact ⟨hv, congrArg Prod.fst heq, congrArg Prod.snd heq⟩
    · rw [if_neg hv] at heq
      exact absurd heq (by simp)
  obtain ⟨hv, rfl, rfl⟩ := h0
  have hri : st[i]? = some row := List.mk_mem_enum_iff_getElem?.mp hir
  have hci : row[j]? = some v := List.mk_mem_enum_iff_getElem?.mp hjv
  have hr : i < st.length := by
    by_contra hge
    rw [List.getElem?_eq_none (Nat.le_of_not_lt hge)] at hri
    exact absurd hri (by simp)
  have hc : j < row.length := by
    by_contra hge
    rw [List.getElem?_eq_none (Nat.le_of_not_lt hge)] at hci
    exact absurd hci (by simp)
  have hrowD : st.getD i [] = row := by
    rw [List.getD_eq_getElem?_getD, hri]
    rfl
  have hpy1 : pyIndex st.length (i : Int) = some i := by
    unfold pyIndex
    rw [if_pos ⟨Int.ofNat_nonneg i, by exact_mod_cast hr⟩]
    simp
  have hpy2 : pyIndex (st.getD i []).length (j : Int) = some j := by
    unfold pyIndex
    rw [hrowD]
    rw [if_pos ⟨Int.ofNat_nonneg j, by exact_mod_cast hc⟩]
    simp
  unfold play_move
  rw [hpy1]
  simp only [hpy2]
  unfold setCell
  rw [hrowD]
